import Mathlib

/-!
Verification development for the Wikipedia crawler (`Crawler.py`).

The source is a single Python class `WikipediaCrawler` with four methods:

* `fetch_page(url)`   — network GET, catch-all `except` returns `""`;
* `extract_links(html)` — `re.findall(r'href="/wiki/([^":#]+)"', html)`,
  each capture is prefixed with `BASE_URL + "/wiki/"` and collected in a set;
* `save_links(links)` — `INSERT OR IGNORE` of each link into a unique column,
  i.e. idempotent set union into the store;
* `crawl(start_url, max_depth)` — breadth-first loop over a frontier with an
  in-memory visited set.

The shallow embedding below models each of these as a pure Lean function.
The network is an explicit oracle `Net : String → NetOutcome`, the SQLite
store is a `Finset String`, and the sequence of `fetch_page` invocations made
by `crawl` is recorded in an explicit log of `(depth, url)` pairs.
-/

namespace WikipediaCrawler

/-- Outcome of the underlying `urllib.request.urlopen` call for one URL:
either some exception is raised (DNS failure, connection failure, timeout,
`HTTPError`, malformed URL, ...), or a response arrives with a status code
and a body; `none` as body models a payload whose `.decode('utf-8')` raises. -/
inductive NetOutcome where
  | throws : NetOutcome
  | response (status : Nat) (body : Option String) : NetOutcome
deriving DecidableEq

/-- The network as a deterministic oracle assigning an outcome to each URL. -/
abbrev Net := String → NetOutcome

/-- Embedding of `fetch_page` (`Crawler.py` lines 43–55): the whole body sits
inside `try: ... except Exception: return ""`.  URL parsing / percent-encoding
of the path is absorbed into the oracle (the oracle is quantified over, so it
may answer for the encoded form whatever the real network would).  A 404
status returns `""`; a body that fails to decode raises, which the `except`
turns into `""`; any raised exception yields `""`. -/
def fetch_page (net : Net) (url : String) : String :=
  match net url with
  | NetOutcome.throws => ""
  | NetOutcome.response status body =>
    if status = 404 then ""
    else
      match body with
      | none => ""
      | some s => s

/-- The fixed site base, `WikipediaCrawler.BASE_URL`. -/
def BASE_URL : String := "https://ru.wikipedia.org"

/-- Characters admitted by the regex character class `[^":#]`: anything but a
double quote, a colon and a hash. -/
def isTitleChar (c : Char) : Bool := !(c = '"' || c = ':' || c = '#')

/-- The literal part `href="/wiki/` of the pattern `href="/wiki/([^":#]+)"`. -/
def litHref : List Char := ['h', 'r', 'e', 'f', '=', '"', '/', 'w', 'i', 'k', 'i', '/']

/-- Strips the literal `l` from the front of `s`; `none` when `s` does not
start with `l`. -/
def dropLit : List Char → List Char → Option (List Char)
  | [], s => some s
  | _ :: _, [] => none
  | l :: ls, c :: cs => if c = l then dropLit ls cs else none

/-- One attempt to match `href="/wiki/([^":#]+)"` at the very start of `s`.
On success returns the captured title and the remainder after the closing
quote.  Greedy `[^":#]+` followed by the literal `"` never benefits from
backtracking (every shorter capture is followed by a class character, not a
quote), so the match succeeds exactly when the maximal run of class
characters after the literal is nonempty and is followed by `"`. -/
def matchAt (s : List Char) : Option (List Char × List Char) :=
  match dropLit litHref s with
  | none => none
  | some rest =>
    if rest.takeWhile isTitleChar = [] then none
    else if (rest.dropWhile isTitleChar).head? = some '"' then
      some (rest.takeWhile isTitleChar, (rest.dropWhile isTitleChar).tail)
    else none

/-- Left-to-right non-overlapping scan of `re.findall`: attempt a match at
each position; on success continue after the match, on failure advance one
character.  `fuel` bounds the number of scan steps; each step consumes at
least one character, so fuel equal to the input length (as supplied by
`findAll`) always suffices for the full scan. -/
def findAllAux : Nat → List Char → List (List Char)
  | 0, _ => []
  | fuel + 1, s =>
    match matchAt s with
    | some (t, r) => t :: findAllAux fuel r
    | none =>
      match s with
      | [] => []
      | _ :: cs => findAllAux fuel cs

/-- All captures of `re.findall(r'href="/wiki/([^":#]+)"', s)`, in scan
order. -/
def findAll (s : List Char) : List (List Char) := findAllAux s.length s

/-- Embedding of `extract_links` (`Crawler.py` lines 57–63): every capture is
reassembled as `BASE_URL + "/wiki/" + capture` and the results are collected
into a set. -/
def extract_links (html : String) : Finset String :=
  ((findAll html.data).map (fun t => BASE_URL ++ "/wiki/" ++ String.mk t)).toFinset

/-- The elements of `extract_links html` as a duplicate-free list: the order
in which `crawl` meets them when it iterates over the extracted set.  Python
iterates a set in unspecified order; the embedding fixes scan order (`dedup`
keeps the first occurrence, exactly as repeated `set.add` calls do). -/
def extractLinksList (html : String) : List String :=
  ((findAll html.data).map (fun t => BASE_URL ++ "/wiki/" ++ String.mk t)).dedup

/-- Embedding of `save_links` (`Crawler.py` lines 65–73): `INSERT OR IGNORE`
into a column with a UNIQUE constraint is idempotent set union. -/
def save_links (store : Finset String) (links : Finset String) : Finset String :=
  store ∪ links

/-- Accumulator for one round of the `while` loop in `crawl` (`Crawler.py`
lines 81–96): the fresh `next_to_visit` set, the cumulative `visited` set, the
store contents, and the log of `fetch_page` invocations made so far, each
tagged with the `current_depth` at which it happened. -/
structure RoundAcc where
  next : List String
  visited : Finset String
  store : Finset String
  log : List (Nat × String)
deriving DecidableEq

/-- Processing of a single frontier URL inside the `for url in to_visit` loop
(`Crawler.py` lines 83–93): skip it when already visited; otherwise call
`fetch_page` (recorded in the log); when the result is nonempty, extract its
links, hand the full link set to `save_links`, add the URL to `visited`, and
add `links - visited` (with `visited` already containing the URL itself, as
in the source, where `visited.add(url)` precedes the update) to
`next_to_visit`.  The set `next_to_visit` is carried as a duplicate-free
list, so `update` appends only those new links not already present. -/
def step (net : Net) (d : Nat) (acc : RoundAcc) (url : String) : RoundAcc :=
  if url ∈ acc.visited then acc
  else
    let html := fetch_page net url
    if html = "" then
      { acc with log := acc.log ++ [(d, url)] }
    else
      let links := extract_links html
      let visited' := insert url acc.visited
      { next := acc.next ++
          ((extractLinksList html).filter
            (fun v => !(decide (v ∈ visited')) && !(acc.next.contains v))),
        visited := visited',
        store := save_links acc.store links,
        log := acc.log ++ [(d, url)] }

/-- One full round: the `for url in to_visit` loop, iterating over the
frontier in some order (Python iterates a set in unspecified order; the order
is made explicit here as a list). -/
def crawlRound (net : Net) (d : Nat) (frontier : List String) (acc : RoundAcc) : RoundAcc :=
  frontier.foldl (step net d) acc

/-- Final state of a finished `crawl` call: visited set, store contents, the
full fetch log, and the frontier and depth counter at the moment the `while`
condition failed. -/
structure CrawlResult where
  visited : Finset String
  store : Finset String
  log : List (Nat × String)
  finalFrontier : List String
  finalDepth : Nat
deriving DecidableEq

/-- The `while to_visit and current_depth < max_depth` loop (`Crawler.py`
lines 81–96).  `remaining` is `max_depth - current_depth`, so
`remaining = 0` is exactly the failure of `current_depth < max_depth`; this
makes the recursion structural while keeping the depth counter `d` explicit
for the log. -/
def crawlLoop (net : Net) :
    Nat → Nat → List String → Finset String → Finset String → List (Nat × String) → CrawlResult
  | 0, d, toVisit, visited, store, log => ⟨visited, store, log, toVisit, d⟩
  | remaining + 1, d, toVisit, visited, store, log =>
    if toVisit = [] then ⟨visited, store, log, toVisit, d⟩
    else
      let acc := crawlRound net d toVisit ⟨[], visited, store, log⟩
      crawlLoop net remaining (d + 1) acc.next acc.visited acc.store acc.log

/-- Embedding of `crawl` (`Crawler.py` lines 75–96): `to_visit = {start_url}`,
`visited = set()`, `current_depth = 0`.  `store0` is whatever the SQLite
store already contains when the crawl starts. -/
def crawl (net : Net) (start_url : String) (max_depth : Nat) (store0 : Finset String) :
    CrawlResult :=
  crawlLoop net max_depth 0 [start_url] ∅ store0 []

/-- The URLs of the log entries whose fetch returned nonempty content, i.e.
the fetch invocations that took the successful branch of `crawl`. -/
def successfulFetches (net : Net) (log : List (Nat × String)) : List String :=
  (log.filter (fun e => fetch_page net e.2 != "")).map Prod.snd

/-- URLs at graph-distance at most `n` from `seed` in the link graph induced
by the fetcher and extractor: `u` links to `v` when `v` is extracted from
`u`'s nonempty page content. -/
def succs (net : Net) (u : String) : Finset String :=
  let html := fetch_page net u
  if html = "" then ∅ else extract_links html

/-- Closed ball of radius `n` around `seed` in the link graph of `succs`. -/
def withinDist (net : Net) (seed : String) : Nat → Finset String
  | 0 => {seed}
  | n + 1 =>
    withinDist net seed n ∪ (withinDist net seed n).biUnion (fun u => succs net u)

/-! Concrete fixtures: a small three-page network used to instantiate the
theorems below on executable inputs.  The seed page links to articles `A` and
`B`; `A`'s page links back to `B`; every request for `B` (and anything else)
raises, so `fetch_page` answers `""` for it. -/

/-- Page content of the seed: anchors to articles `A` and `B`. -/
def htmlS : String := "href=\"/wiki/A\" href=\"/wiki/B\""

/-- Page content of article `A`: one anchor to article `B`. -/
def htmlA : String := "href=\"/wiki/B\""

/-- Page content holding a single anchor whose href carries a query string
after the title. -/
def htmlQ : String := "href=\"/wiki/A?x=1\""

/-- Canonical URL of article `A`. -/
def urlA : String := "https://ru.wikipedia.org/wiki/A"

/-- Canonical URL of article `B`. -/
def urlB : String := "https://ru.wikipedia.org/wiki/B"

/-- URL extracted from `htmlQ`: the query string survives into the title. -/
def urlQ : String := "https://ru.wikipedia.org/wiki/A?x=1"

/-- Seed URL for the fixture crawls. -/
def seedS : String := "S"

/-- The fixture network oracle. -/
def net0 : Net := fun url =>
  if url = seedS then NetOutcome.response 200 (some htmlS)
  else if url = urlA then NetOutcome.response 200 (some htmlA)
  else NetOutcome.throws

/-- An empty round accumulator, used to instantiate per-URL statements. -/
def accInit : RoundAcc := ⟨[], ∅, ∅, []⟩
/-! Helper lemmas about the regex scan. -/

theorem dropLit_append (l s : List Char) : dropLit l (l ++ s) = some s := by
  induction l with
  | nil => rfl
  | cons c cs ih => simpa [dropLit] using ih

theorem takeWhile_append_all {p : Char → Bool} (t : List Char) (a : Char) (r : List Char)
    (ht : ∀ c ∈ t, p c = true) (ha : p a = false) :
    (t ++ a :: r).takeWhile p = t := by
  induction t with
  | nil => simp [List.takeWhile_cons, ha]
  | cons c cs ih =>
    have hc : p c = true := ht c (List.mem_cons_self c cs)
    simp only [List.cons_append, List.takeWhile_cons, hc, if_true, List.cons.injEq, true_and]
    exact ih (fun x hx => ht x (List.mem_cons_of_mem c hx))

theorem dropWhile_append_all {p : Char → Bool} (t : List Char) (a : Char) (r : List Char)
    (ht : ∀ c ∈ t, p c = true) (ha : p a = false) :
    (t ++ a :: r).dropWhile p = a :: r := by
  induction t with
  | nil => simp [List.dropWhile_cons, ha]
  | cons c cs ih =>
    have hc : p c = true := ht c (List.mem_cons_self c cs)
    simp only [List.cons_append, List.dropWhile_cons, hc, if_true]
    exact ih (fun x hx => ht x (List.mem_cons_of_mem c hx))

theorem matchAt_eq_some {s t r : List Char} (h : matchAt s = some (t, r)) :
    t ≠ [] ∧ ∀ c ∈ t, isTitleChar c = true := by
  unfold matchAt at h
  rcases hd : dropLit litHref s with _ | rest <;> simp only [hd] at h
  · exact absurd h (by simp)
  · by_cases hne : rest.takeWhile isTitleChar = []
    · rw [if_pos hne] at h; simp at h
    · rw [if_neg hne] at h
      by_cases hq : (rest.dropWhile isTitleChar).head? = some '"'
      · rw [if_pos hq] at h
        rw [Option.some.injEq, Prod.mk.injEq] at h
        obtain ⟨h1, h2⟩ := h
        subst h1
        exact ⟨hne, fun c hc => List.mem_takeWhile_imp hc⟩
      · rw [if_neg hq] at h; simp at h

theorem findAllAux_succ (n : Nat) (s : List Char) :
    findAllAux (n + 1) s =
      match matchAt s with
      | some (t, r) => t :: findAllAux n r
      | none =>
        match s with
        | [] => []
        | _ :: cs => findAllAux n cs := rfl

theorem findAllAux_nil (fuel : Nat) : findAllAux fuel [] = [] := by
  cases fuel with
  | zero => rfl
  | succ n => rfl

theorem mem_findAllAux {fuel : Nat} {s t : List Char} (h : t ∈ findAllAux fuel s) :
    t ≠ [] ∧ ∀ c ∈ t, isTitleChar c = true := by
  induction fuel generalizing s with
  | zero => simp [findAllAux] at h
  | succ n ih =>
    rw [findAllAux_succ] at h
    cases hm : matchAt s with
    | some pr =>
      obtain ⟨t', r⟩ := pr
      simp only [hm] at h
      rcases List.mem_cons.mp h with h1 | h2
      · subst h1; exact matchAt_eq_some hm
      · exact ih h2
    | none =>
      simp only [hm] at h
      cases s with
      | nil => simp at h
      | cons c cs => exact ih h

/-- Claim C4: every URL in the set returned by `extract_links`, on any content
input, is the fixed site base followed by `/wiki/` and a nonempty title
segment that contains neither a colon nor a hash. -/
theorem extract_links_no_colon_hash {html url : String} (h : url ∈ extract_links html) :
    ∃ t : List Char, url = BASE_URL ++ "/wiki/" ++ String.mk t ∧ t ≠ [] ∧
      ∀ c ∈ t, c ≠ ':' ∧ c ≠ '#' := by
  unfold extract_links at h
  rw [List.mem_toFinset] at h
  obtain ⟨t, ht, rfl⟩ := List.mem_map.mp h
  unfold findAll at ht
  refine ⟨t, rfl, (mem_findAllAux ht).1, ?_⟩
  intro c hc
  have hch := (mem_findAllAux ht).2 c hc
  have hnot : (¬c = '"' ∧ ¬c = ':') ∧ ¬c = '#' := by simpa [isTitleChar] using hch
  exact ⟨hnot.1.2, hnot.2⟩

theorem matchAt_title (t : List Char) (h1 : t ≠ []) (h2 : ∀ c ∈ t, isTitleChar c = true) :
    matchAt (litHref ++ (t ++ '"' :: [])) = some (t, []) := by
  unfold matchAt
  rw [dropLit_append]
  show (if (t ++ '"' :: []).takeWhile isTitleChar = [] then none
    else if ((t ++ '"' :: []).dropWhile isTitleChar).head? = some '"' then
      some ((t ++ '"' :: []).takeWhile isTitleChar, ((t ++ '"' :: []).dropWhile isTitleChar).tail)
    else none) = some (t, [])
  rw [takeWhile_append_all t '"' [] h2 rfl, dropWhile_append_all t '"' [] h2 rfl, if_neg h1]
  rfl

theorem findAll_title (t : List Char) (h1 : t ≠ []) (h2 : ∀ c ∈ t, isTitleChar c = true) :
    findAll (litHref ++ (t ++ '"' :: [])) = [t] := by
  unfold findAll
  obtain ⟨n, hn⟩ : ∃ n, (litHref ++ (t ++ '"' :: [])).length = n + 1 :=
    ⟨litHref.length + t.length, by simp [litHref]; omega⟩
  rw [hn, findAllAux_succ, matchAt_title t h1 h2]
  show t :: findAllAux n [] = [t]
  rw [findAllAux_nil]

/-- Claim C3, amended: an anchor of the exact shape `href="/wiki/TITLE"` — where
`TITLE` is any nonempty run of characters other than `"`, `:` and `#` —
contributes exactly its reassembled URL.  The pattern does anchor on the
closing quote, but a query string after the title is not rejected: its
characters (`?`, `=`, ...) are in the admitted class, so they are captured
as part of the title and the anchor still contributes a URL.  Only anchors
whose title segment would contain `"`, `:` or `#` are skipped. -/
theorem extract_links_title (t : List Char) (h1 : t ≠ []) (h2 : ∀ c ∈ t, isTitleChar c = true) :
    extract_links ("href=\"/wiki/" ++ String.mk t ++ "\"") =
      {BASE_URL ++ "/wiki/" ++ String.mk t} := by
  unfold extract_links
  have hd : ("href=\"/wiki/" ++ String.mk t ++ "\"").data = litHref ++ (t ++ '"' :: []) := by
    show (litHref ++ t) ++ '"' :: [] = litHref ++ (t ++ '"' :: [])
    rw [List.append_assoc]
  rw [hd, findAll_title t h1 h2]
  simp

/-! Helper lemmas about the crawl loop. -/

theorem step_cases (net : Net) (d : Nat) (acc : RoundAcc) (url : String) :
    (url ∈ acc.visited ∧ step net d acc url = acc) ∨
    (url ∉ acc.visited ∧ fetch_page net url = "" ∧
      step net d acc url = { acc with log := acc.log ++ [(d, url)] }) ∨
    (url ∉ acc.visited ∧ fetch_page net url ≠ "" ∧
      step net d acc url =
        { next := acc.next ++
            ((extractLinksList (fetch_page net url)).filter
              (fun v => !(decide (v ∈ insert url acc.visited)) && !(acc.next.contains v))),
          visited := insert url acc.visited,
          store := save_links acc.store (extract_links (fetch_page net url)),
          log := acc.log ++ [(d, url)] }) := by
  by_cases h1 : url ∈ acc.visited
  · exact Or.inl ⟨h1, by simp [step, h1]⟩
  · by_cases h2 : fetch_page net url = ""
    · exact Or.inr (Or.inl ⟨h1, h2, by simp [step, h1, h2]⟩)
    · exact Or.inr (Or.inr ⟨h1, h2, by simp [step, h1, h2]⟩)

theorem crawlRound_nil (net : Net) (d : Nat) (acc : RoundAcc) :
    crawlRound net d [] acc = acc := rfl

theorem crawlRound_cons (net : Net) (d : Nat) (u : String) (us : List String) (acc : RoundAcc) :
    crawlRound net d (u :: us) acc = crawlRound net d us (step net d acc u) := rfl

theorem crawlLoop_zero (net : Net) (d : Nat) (toVisit : List String)
    (visited store : Finset String) (log : List (Nat × String)) :
    crawlLoop net 0 d toVisit visited store log = ⟨visited, store, log, toVisit, d⟩ := rfl

theorem crawlLoop_succ (net : Net) (remaining d : Nat) (toVisit : List String)
    (visited store : Finset String) (log : List (Nat × String)) :
    crawlLoop net (remaining + 1) d toVisit visited store log =
      if toVisit = [] then ⟨visited, store, log, toVisit, d⟩
      else
        crawlLoop net remaining (d + 1)
          (crawlRound net d toVisit ⟨[], visited, store, log⟩).next
          (crawlRound net d toVisit ⟨[], visited, store, log⟩).visited
          (crawlRound net d toVisit ⟨[], visited, store, log⟩).store
          (crawlRound net d toVisit ⟨[], visited, store, log⟩).log := rfl

theorem succs_of_fetch_ne (net : Net) (u : String) (h : fetch_page net u ≠ "") :
    succs net u = extract_links (fetch_page net u) := by
  simp [succs, h]

theorem mem_extractLinksList_iff (html : String) (v : String) :
    v ∈ extractLinksList html ↔ v ∈ extract_links html := by
  unfold extractLinksList extract_links
  rw [List.mem_dedup, List.mem_toFinset]

theorem mem_withinDist_succ (net : Net) (seed : String) (d : Nat) {u v : String}
    (hu : u ∈ withinDist net seed d) (hv : v ∈ succs net u) :
    v ∈ withinDist net seed (d + 1) := by
  show v ∈ withinDist net seed d ∪ (withinDist net seed d).biUnion (fun w => succs net w)
  exact Finset.mem_union_right _ (Finset.mem_biUnion.mpr ⟨u, hu, hv⟩)

theorem round_log_structure (net : Net) (d : Nat) :
    ∀ (frontier : List String) (acc : RoundAcc) (e : Nat × String),
      e ∈ (crawlRound net d frontier acc).log → e ∈ acc.log ∨ (e.1 = d ∧ e.2 ∈ frontier) := by
  intro frontier
  induction frontier with
  | nil => intro acc e he; exact Or.inl he
  | cons u us ih =>
    intro acc e he
    rw [crawlRound_cons] at he
    rcases ih (step net d acc u) e he with h | h
    · rcases step_cases net d acc u with ⟨_, hs⟩ | ⟨_, _, hs⟩ | ⟨_, _, hs⟩ <;> rw [hs] at h
      · exact Or.inl h
      · rcases List.mem_append.mp h with h' | h'
        · exact Or.inl h'
        · simp only [List.mem_singleton] at h'
          subst h'
          exact Or.inr ⟨rfl, List.mem_cons_self _ _⟩
      · rcases List.mem_append.mp h with h' | h'
        · exact Or.inl h'
        · simp only [List.mem_singleton] at h'
          subst h'
          exact Or.inr ⟨rfl, List.mem_cons_self _ _⟩
    · exact Or.inr ⟨h.1, List.mem_cons_of_mem _ h.2⟩

theorem round_next_structure (net : Net) (d : Nat) :
    ∀ (frontier : List String) (acc : RoundAcc) (v : String),
      v ∈ (crawlRound net d frontier acc).next →
        v ∈ acc.next ∨ ∃ u ∈ frontier, v ∈ succs net u := by
  intro frontier
  induction frontier with
  | nil => intro acc v hv; exact Or.inl hv
  | cons u us ih =>
    intro acc v hv
    rw [crawlRound_cons] at hv
    rcases ih (step net d acc u) v hv with h | h
    · rcases step_cases net d acc u with ⟨_, hs⟩ | ⟨_, _, hs⟩ | ⟨_, hf, hs⟩ <;> rw [hs] at h
      · exact Or.inl h
      · exact Or.inl h
      · rcases List.mem_append.mp h with h' | h'
        · exact Or.inl h'
        · have hv' : v ∈ extractLinksList (fetch_page net u) := (List.mem_filter.mp h').1
          refine Or.inr ⟨u, List.mem_cons_self _ _, ?_⟩
          rw [succs_of_fetch_ne net u hf]
          exact (mem_extractLinksList_iff _ v).mp hv'
    · exact Or.inr ⟨h.choose, List.mem_cons_of_mem _ h.choose_spec.1, h.choose_spec.2⟩

/-- Invariant tying the visited set to the fetch log: a URL is visited exactly
when some logged fetch of it returned nonempty content (the fetcher is a
deterministic function of the oracle, so "its fetch returned nonempty" is
`fetch_page net u ≠ ""`). -/
def VisitedInv (net : Net) (visited : Finset String) (log : List (Nat × String)) : Prop :=
  ∀ u, u ∈ visited ↔ ∃ d, (d, u) ∈ log ∧ fetch_page net u ≠ ""

theorem step_VisitedInv (net : Net) (d : Nat) (acc : RoundAcc) (url : String)
    (h : VisitedInv net acc.visited acc.log) :
    VisitedInv net (step net d acc url).visited (step net d acc url).log := by
  rcases step_cases net d acc url with ⟨h1, hs⟩ | ⟨h1, h2, hs⟩ | ⟨h1, h2, hs⟩ <;> rw [hs]
  · exact h
  · intro u
    rw [h u]
    constructor
    · rintro ⟨d', hd', hf⟩
      exact ⟨d', List.mem_append_left _ hd', hf⟩
    · rintro ⟨d', hd', hf⟩
      rcases List.mem_append.mp hd' with h' | h'
      · exact ⟨d', h', hf⟩
      · simp only [List.mem_singleton, Prod.mk.injEq] at h'
        exact absurd (h'.2 ▸ h2) hf
  · intro u
    show u ∈ insert url acc.visited ↔ _
    rw [Finset.mem_insert]
    constructor
    · rintro (rfl | hu)
      · exact ⟨d, List.mem_append_right _ (List.mem_singleton.mpr rfl), h2⟩
      · obtain ⟨d', hd', hf⟩ := (h u).mp hu
        exact ⟨d', List.mem_append_left _ hd', hf⟩
    · rintro ⟨d', hd', hf⟩
      rcases List.mem_append.mp hd' with h' | h'
      · exact Or.inr ((h u).mpr ⟨d', h', hf⟩)
      · simp only [List.mem_singleton, Prod.mk.injEq] at h'
        exact Or.inl h'.2

theorem round_VisitedInv (net : Net) (d : Nat) :
    ∀ (frontier : List String) (acc : RoundAcc),
      VisitedInv net acc.visited acc.log →
      VisitedInv net (crawlRound net d frontier acc).visited
        (crawlRound net d frontier acc).log := by
  intro frontier
  induction frontier with
  | nil => intro acc h; exact h
  | cons u us ih =>
    intro acc h
    rw [crawlRound_cons]
    exact ih (step net d acc u) (step_VisitedInv net d acc u h)

theorem loop_VisitedInv (net : Net) :
    ∀ (remaining d : Nat) (toVisit : List String) (visited store : Finset String)
      (log : List (Nat × String)),
      VisitedInv net visited log →
      VisitedInv net (crawlLoop net remaining d toVisit visited store log).visited
        (crawlLoop net remaining d toVisit visited store log).log := by
  intro remaining
  induction remaining with
  | zero => intro d tv v s log h; exact h
  | succ n ih =>
    intro d tv v s log h
    rw [crawlLoop_succ]
    by_cases htv : tv = []
    · rw [if_pos htv]; exact h
    · rw [if_neg htv]
      exact ih (d + 1) _ _ _ _ (round_VisitedInv net d tv ⟨[], v, s, log⟩ h)

/-- Invariant for the no-refetch property: the URLs of successful fetches are
pairwise distinct and are all in the visited set. -/
def NodupInv (net : Net) (visited : Finset String) (log : List (Nat × String)) : Prop :=
  (successfulFetches net log).Nodup ∧ ∀ u ∈ successfulFetches net log, u ∈ visited

theorem successfulFetches_append (net : Net) (l1 l2 : List (Nat × String)) :
    successfulFetches net (l1 ++ l2) =
      successfulFetches net l1 ++ successfulFetches net l2 := by
  simp [successfulFetches, List.filter_append]

theorem successfulFetches_single_pos (net : Net) (d : Nat) (u : String)
    (h : fetch_page net u ≠ "") : successfulFetches net [(d, u)] = [u] := by
  simp [successfulFetches, List.filter_cons, h]

theorem successfulFetches_single_neg (net : Net) (d : Nat) (u : String)
    (h : fetch_page net u = "") : successfulFetches net [(d, u)] = [] := by
  simp [successfulFetches, List.filter_cons, h]

theorem step_NodupInv (net : Net) (d : Nat) (acc : RoundAcc) (url : String)
    (h : NodupInv net acc.visited acc.log) :
    NodupInv net (step net d acc url).visited (step net d acc url).log := by
  rcases step_cases net d acc url with ⟨h1, hs⟩ | ⟨h1, h2, hs⟩ | ⟨h1, h2, hs⟩ <;> rw [hs]
  · exact h
  · constructor
    · show (successfulFetches net (acc.log ++ [(d, url)])).Nodup
      rw [successfulFetches_append, successfulFetches_single_neg net d url h2,
        List.append_nil]
      exact h.1
    · intro u hu
      rw [successfulFetches_append, successfulFetches_single_neg net d url h2,
        List.append_nil] at hu
      exact h.2 u hu
  · constructor
    · show (successfulFetches net (acc.log ++ [(d, url)])).Nodup
      rw [successfulFetches_append, successfulFetches_single_pos net d url h2]
      rw [List.nodup_append]
      refine ⟨h.1, List.nodup_singleton url, ?_⟩
      intro u hu hu'
      rw [List.mem_singleton] at hu'
      subst hu'
      exact h1 (h.2 u hu)
    · intro u hu
      rw [successfulFetches_append, successfulFetches_single_pos net d url h2] at hu
      show u ∈ insert url acc.visited
      rcases List.mem_append.mp hu with h' | h'
      · exact Finset.mem_insert_of_mem (h.2 u h')
      · rw [List.mem_singleton] at h'
        exact h' ▸ Finset.mem_insert_self url acc.visited

theorem round_NodupInv (net : Net) (d : Nat) :
    ∀ (frontier : List String) (acc : RoundAcc),
      NodupInv net acc.visited acc.log →
      NodupInv net (crawlRound net d frontier acc).visited
        (crawlRound net d frontier acc).log := by
  intro frontier
  induction frontier with
  | nil => intro acc h; exact h
  | cons u us ih =>
    intro acc h
    rw [crawlRound_cons]
    exact ih (step net d acc u) (step_NodupInv net d acc u h)

theorem loop_NodupInv (net : Net) :
    ∀ (remaining d : Nat) (toVisit : List String) (visited store : Finset String)
      (log : List (Nat × String)),
      NodupInv net visited log →
      NodupInv net (crawlLoop net remaining d toVisit visited store log).visited
        (crawlLoop net remaining d toVisit visited store log).log := by
  intro remaining
  induction remaining with
  | zero => intro d tv v s log h; exact h
  | succ n ih =>
    intro d tv v s log h
    rw [crawlLoop_succ]
    by_cases htv : tv = []
    · rw [if_pos htv]; exact h
    · rw [if_neg htv]
      exact ih (d + 1) _ _ _ _ (round_NodupInv net d tv ⟨[], v, s, log⟩ h)

theorem loop_log (net : Net) (seed : String) :
    ∀ (remaining d : Nat) (toVisit : List String) (visited store : Finset String)
      (log : List (Nat × String)),
      (∀ u ∈ toVisit, u ∈ withinDist net seed d) →
      ∀ e ∈ (crawlLoop net remaining d toVisit visited store log).log,
        e ∈ log ∨ (d ≤ e.1 ∧ e.1 < d + remaining ∧ e.2 ∈ withinDist net seed e.1) := by
  intro remaining
  induction remaining with
  | zero => intro d tv v s log hfr e he; exact Or.inl he
  | succ n ih =>
    intro d tv v s log hfr e he
    rw [crawlLoop_succ] at he
    by_cases htv : tv = []
    · rw [if_pos htv] at he; exact Or.inl he
    · rw [if_neg htv] at he
      have hnext : ∀ u ∈ (crawlRound net d tv ⟨[], v, s, log⟩).next,
          u ∈ withinDist net seed (d + 1) := by
        intro u hu
        rcases round_next_structure net d tv ⟨[], v, s, log⟩ u hu with h | ⟨w, hw, hsucc⟩
        · exact absurd h (List.not_mem_nil u)
        · exact mem_withinDist_succ net seed d (hfr w hw) hsucc
      rcases ih (d + 1) _ _ _ _ hnext e he with h | h
      · rcases round_log_structure net d tv ⟨[], v, s, log⟩ e h with h' | h'
        · exact Or.inl h'
        · refine Or.inr ⟨le_of_eq h'.1.symm, ?_, h'.1 ▸ hfr e.2 h'.2⟩
          omega
      · refine Or.inr ⟨by omega, by omega, h.2.2⟩

theorem loop_final (net : Net) :
    ∀ (remaining d : Nat) (toVisit : List String) (visited store : Finset String)
      (log : List (Nat × String)),
      (crawlLoop net remaining d toVisit visited store log).finalDepth ≤ d + remaining ∧
      ((crawlLoop net remaining d toVisit visited store log).finalFrontier = [] ∨
        (crawlLoop net remaining d toVisit visited store log).finalDepth = d + remaining) := by
  intro remaining
  induction remaining with
  | zero => intro d tv v s log; exact ⟨Nat.le_refl _, Or.inr rfl⟩
  | succ n ih =>
    intro d tv v s log
    rw [crawlLoop_succ]
    by_cases htv : tv = []
    · rw [if_pos htv]
      refine ⟨?_, Or.inl htv⟩
      show d ≤ d + (n + 1)
      omega
    · rw [if_neg htv]
      obtain ⟨hle, hdisj⟩ := ih (d + 1) (crawlRound net d tv ⟨[], v, s, log⟩).next
        (crawlRound net d tv ⟨[], v, s, log⟩).visited
        (crawlRound net d tv ⟨[], v, s, log⟩).store
        (crawlRound net d tv ⟨[], v, s, log⟩).log
      refine ⟨by omega, ?_⟩
      rcases hdisj with h | h
      · exact Or.inl h
      · exact Or.inr (by omega)

theorem count_map_snd_eq_successful (net : Net) (u : String)
    (h : fetch_page net u ≠ "") :
    ∀ log : List (Nat × String),
      (log.map Prod.snd).count u = (successfulFetches net log).count u := by
  intro log
  induction log with
  | nil => rfl
  | cons e rest ih =>
    obtain ⟨de, ue⟩ := e
    by_cases hu : ue = u
    · subst hu
      have hb : (fetch_page net (de, ue).2 != "") = true := by
        simpa using h
      simp [successfulFetches, List.filter_cons, hb, List.count_cons]
      rw [successfulFetches] at ih
      simp [ih]
    · by_cases hf : (fetch_page net (de, ue).2 != "") = true
      · simp [successfulFetches, List.filter_cons, hf, List.count_cons, hu]
        rw [successfulFetches] at ih
        simp [ih]
      · simp [successfulFetches, List.filter_cons, hf, List.count_cons, hu]
        rw [successfulFetches] at ih
        simp [ih]

theorem crawl_def (net : Net) (seed : String) (N : Nat) (store0 : Finset String) :
    crawl net seed N store0 = crawlLoop net N 0 [seed] ∅ store0 [] := rfl

theorem seed_frontier (net : Net) (seed : String) :
    ∀ w ∈ [seed], w ∈ withinDist net seed 0 := by
  intro w hw
  rw [List.mem_singleton] at hw
  subst hw
  show w ∈ ({w} : Finset String)
  exact Finset.mem_singleton_self w

/-! Claim theorems. -/

/-- Claim C1: for every oracle, seed and `maxDepth = N`, every `fetch_page`
invocation of the crawl happens in a round whose depth counter `d` is
strictly below `N` and targets a frontier URL at graph-distance at most `d`
from the seed; in particular a URL first discovered at distance greater than
`N` is never fetched. -/
theorem crawl_depth_bound (net : Net) (seed : String) (N : Nat) (store0 : Finset String)
    (d : Nat) (u : String) (h : (d, u) ∈ (crawl net seed N store0).log) :
    d < N ∧ u ∈ withinDist net seed d := by
  rw [crawl_def] at h
  rcases loop_log net seed N 0 [seed] ∅ store0 [] (seed_frontier net seed) (d, u) h with
    h' | h'
  · exact absurd h' (List.not_mem_nil _)
  · obtain ⟨-, h2, h3⟩ := h'
    exact ⟨by omega, h3⟩

/-- Witness for claim C1 at the fixture network: the seed itself is fetched
at depth 0 and lies within distance 0. -/
theorem crawl_depth_bound_witness :
    ((0, seedS) ∈ (crawl net0 seedS 1 ∅).log) ∧
      (0 < 1 ∧ seedS ∈ withinDist net0 seedS 0) :=
  ⟨by decide, crawl_depth_bound net0 seedS 1 ∅ 0 seedS (by decide)⟩

/-- Claim C2: when a frontier URL not yet visited is processed and its fetch
returns nonempty content, the full extracted link set is handed to
`save_links` (no filtering on the store side: already-visited links and
links beyond the depth budget included), the URL is marked visited, and the
next frontier gains exactly the extracted links outside the updated visited
set. -/
theorem crawl_step_persists_all (net : Net) (d : Nat) (acc : RoundAcc) (url : String)
    (h1 : url ∉ acc.visited) (h2 : fetch_page net url ≠ "") :
    (step net d acc url).store = save_links acc.store (extract_links (fetch_page net url)) ∧
    (step net d acc url).visited = insert url acc.visited ∧
    (∀ v, v ∈ (step net d acc url).next ↔
      v ∈ acc.next ∨
        (v ∈ extract_links (fetch_page net url) ∧ v ∉ insert url acc.visited)) := by
  rcases step_cases net d acc url with ⟨h1', hs⟩ | ⟨-, h2', hs⟩ | ⟨-, -, hs⟩
  · exact absurd h1' h1
  · exact absurd h2' h2
  · rw [hs]
    refine ⟨rfl, rfl, ?_⟩
    intro v
    simp only [List.mem_append, List.mem_filter, Bool.and_eq_true, Bool.not_eq_true',
      decide_eq_false_iff_not, mem_extractLinksList_iff]
    constructor
    · rintro (hv | ⟨hv1, hv2, hv3⟩)
      · exact Or.inl hv
      · refine Or.inr ⟨hv1, hv2⟩
    · rintro (hv | ⟨hv1, hv2⟩)
      · exact Or.inl hv
      · by_cases hn : v ∈ acc.next
        · exact Or.inl hn
        · refine Or.inr ⟨hv1, hv2, ?_⟩
          simpa using hn

/-- Witness for claim C2 at the fixture network: processing the seed. -/
theorem crawl_step_persists_all_witness :
    (seedS ∉ accInit.visited ∧ fetch_page net0 seedS ≠ "") ∧
    ((step net0 0 accInit seedS).store =
        save_links accInit.store (extract_links (fetch_page net0 seedS)) ∧
      (step net0 0 accInit seedS).visited = insert seedS accInit.visited ∧
      (∀ v, v ∈ (step net0 0 accInit seedS).next ↔
        v ∈ accInit.next ∨
          (v ∈ extract_links (fetch_page net0 seedS) ∧
            v ∉ insert seedS accInit.visited))) :=
  ⟨⟨by decide, by decide⟩,
    crawl_step_persists_all net0 0 accInit seedS (by decide) (by decide)⟩

/-- Claim C3, counterexample: the anchor `href="/wiki/A?x=1"` carries a query
string after its title, yet it does contribute a URL — the query string is
captured as part of the title, and the produced URL is the only element of
the result set.  This refutes "anchors whose href carries an extra query
string after the title contribute no URL to the result set". -/
theorem extract_links_query_counterexample :
    urlQ ∈ extract_links htmlQ ∧ (extract_links htmlQ).card = 1 :=
  ⟨by decide, by decide⟩

/-- Witness for claim C3 (amended) with the query-string title `A?x=1`. -/
theorem extract_links_title_witness :
    (("A?x=1").data ≠ [] ∧ ∀ c ∈ ("A?x=1").data, isTitleChar c = true) ∧
      extract_links ("href=\"/wiki/" ++ String.mk (("A?x=1").data) ++ "\"") =
        {BASE_URL ++ "/wiki/" ++ String.mk (("A?x=1").data)} :=
  ⟨⟨by decide, by decide⟩, extract_links_title (("A?x=1").data) (by decide) (by decide)⟩

/-- Witness for claim C4: the URL extracted from article `A`'s page. -/
theorem extract_links_no_colon_hash_witness :
    urlB ∈ extract_links htmlA ∧
      (∃ t : List Char, urlB = BASE_URL ++ "/wiki/" ++ String.mk t ∧ t ≠ [] ∧
        ∀ c ∈ t, c ≠ ':' ∧ c ≠ '#') :=
  ⟨by decide, @extract_links_no_colon_hash htmlA urlB (by decide)⟩

/-- Claim C5: `fetch_page` never propagates a failure past its own boundary:
when the underlying request raises, when the response status is 404, or when
the body fails to decode, the result is the empty-content sentinel `""`. -/
theorem fetch_page_failure_empty (net : Net) (url : String) :
    (net url = NetOutcome.throws → fetch_page net url = "") ∧
    (∀ body, net url = NetOutcome.response 404 body → fetch_page net url = "") ∧
    (∀ status, net url = NetOutcome.response status none → fetch_page net url = "") := by
  refine ⟨fun h => ?_, fun body h => ?_, fun status h => ?_⟩
  · simp [fetch_page, h]
  · cases body with
    | none => simp [fetch_page, h]
    | some s => simp [fetch_page, h]
  · by_cases hs : status = 404
    · subst hs
      simp [fetch_page, h]
    · simp [fetch_page, h, hs]

/-- Witness for claim C5: requests for `urlB` raise in the fixture network
and `fetch_page` answers the empty sentinel. -/
theorem fetch_page_failure_empty_witness :
    net0 urlB = NetOutcome.throws ∧ fetch_page net0 urlB = "" :=
  ⟨by decide, (fetch_page_failure_empty net0 urlB).1 (by decide)⟩

/-- Claim C6: with `maxDepth = 0` the crawl performs zero fetches (the fetch
log is empty), leaves the store exactly as it was, and visits nothing. -/
theorem crawl_depth_zero_noop (net : Net) (seed : String) (store0 : Finset String) :
    (crawl net seed 0 store0).log = [] ∧ (crawl net seed 0 store0).store = store0 ∧
    (crawl net seed 0 store0).visited = ∅ :=
  ⟨rfl, rfl, rfl⟩

/-- Claim C7: at the end of any crawl a URL is in the visited set exactly
when some logged fetch of it returned nonempty content during that crawl;
and processing a URL whose fetch returns empty contributes nothing to the
next frontier and does not mark the URL visited (so a later round may
reattempt it). -/
theorem crawl_visited_iff_successful (net : Net) (seed : String) (N : Nat)
    (store0 : Finset String) :
    (∀ u, u ∈ (crawl net seed N store0).visited ↔
      ∃ d, (d, u) ∈ (crawl net seed N store0).log ∧ fetch_page net u ≠ "") ∧
    (∀ d acc url, url ∉ acc.visited → fetch_page net url = "" →
      (step net d acc url).next = acc.next ∧ url ∉ (step net d acc url).visited) := by
  constructor
  · have h0 : VisitedInv net ∅ [] := by
      intro u
      simp
    rw [crawl_def]
    exact loop_VisitedInv net N 0 [seed] ∅ store0 [] h0
  · intro d acc url h1 h2
    rcases step_cases net d acc url with ⟨h1', hs⟩ | ⟨-, -, hs⟩ | ⟨-, h2', hs⟩
    · exact absurd h1' h1
    · rw [hs]
      exact ⟨rfl, h1⟩
    · exact absurd h2 h2'

/-- Witness for claim C7: `urlB`'s fetch is empty in the fixture network, and
processing it leaves frontier and visited set untouched. -/
theorem crawl_visited_iff_successful_witness :
    (urlB ∉ accInit.visited ∧ fetch_page net0 urlB = "") ∧
    ((step net0 0 accInit urlB).next = accInit.next ∧
      urlB ∉ (step net0 0 accInit urlB).visited) :=
  ⟨⟨by decide, by decide⟩,
    (crawl_visited_iff_successful net0 seedS 3 ∅).2 0 accInit urlB (by decide) (by decide)⟩

/-- Claim C8: the crawl is a total function of the oracle (every branch of
the embedded `fetch_page`, `extract_links`, `save_links` and of the loop
produces a value — the catch-all fetcher absorbs every failure), and it can
only stop by exhausting the depth budget or the frontier: at termination the
depth counter equals `maxDepth` or the frontier is empty. -/
theorem crawl_stops_only_depth_or_frontier (net : Net) (seed : String) (N : Nat)
    (store0 : Finset String) :
    (crawl net seed N store0).finalDepth ≤ N ∧
    ((crawl net seed N store0).finalFrontier = [] ∨
      (crawl net seed N store0).finalDepth = N) := by
  rw [crawl_def]
  obtain ⟨hle, hdisj⟩ := loop_final net N 0 [seed] ∅ store0 []
  constructor
  · omega
  · rcases hdisj with h | h
    · exact Or.inl h
    · exact Or.inr (by omega)

/-- Claim C9: the crawl terminates on every oracle (the embedding is a total
structurally recursive function, cycles included since the link graph is
arbitrary): the loop performs at most `maxDepth` rounds — every fetch is
logged at a depth strictly below `maxDepth` — and a URL is never refetched
once in the visited set: the successful fetches, exactly the ones that enter
the visited set, are pairwise distinct. -/
theorem crawl_terminates_bounded (net : Net) (seed : String) (N : Nat)
    (store0 : Finset String) :
    (∀ e ∈ (crawl net seed N store0).log, e.1 < N) ∧
    (successfulFetches net (crawl net seed N store0).log).Nodup := by
  constructor
  · intro e he
    rw [crawl_def] at he
    rcases loop_log net seed N 0 [seed] ∅ store0 [] (seed_frontier net seed) e he with
      h | h
    · exact absurd h (List.not_mem_nil _)
    · obtain ⟨-, h2, -⟩ := h
      omega
  · have h0 : NodupInv net ∅ [] :=
      ⟨List.nodup_nil, fun u hu => absurd hu (List.not_mem_nil u)⟩
    rw [crawl_def]
    exact (loop_NodupInv net N 0 [seed] ∅ store0 [] h0).1

/-- Witness for claim C9: the fixture crawl's cyclic network (the seed page
and `A`'s page both link to `B`) terminates with every fetch below depth 3
and pairwise-distinct successful fetches. -/
theorem crawl_terminates_bounded_witness :
    ((0, seedS) ∈ (crawl net0 seedS 3 ∅).log) ∧ ((0 : Nat) < 3) ∧
      (successfulFetches net0 (crawl net0 seedS 3 ∅).log).Nodup :=
  ⟨by decide, (crawl_terminates_bounded net0 seedS 3 ∅).1 (0, seedS) (by decide),
    (crawl_terminates_bounded net0 seedS 3 ∅).2⟩

/-- Claim C10, counterexample: in the fixture network the crawl fetches
`urlB` twice — at depth 1 (discovered from the seed; its fetch returns empty,
so it is not marked visited) and again at depth 2 (rediscovered from `urlA`'s
page) — refuting "fetch is invoked at most once per distinct URL string". -/
theorem crawl_refetch_counterexample :
    ((crawl net0 seedS 3 ∅).log.map Prod.snd).count urlB = 2 := by
  decide

/-- Claim C10, amended: fetch is invoked at most once per distinct URL whose
fetch returns nonempty content — such a URL enters the visited set right
after its single fetch and the in-round visited check skips it from then on.
A URL whose fetch returns empty is never marked visited and may be fetched
again in a later round. -/
theorem crawl_fetch_once_successful (net : Net) (seed : String) (N : Nat)
    (store0 : Finset String) (u : String) (h : fetch_page net u ≠ "") :
    ((crawl net seed N store0).log.map Prod.snd).count u ≤ 1 := by
  rw [count_map_snd_eq_successful net u h]
  have h0 : NodupInv net ∅ [] :=
    ⟨List.nodup_nil, fun w hw => absurd hw (List.not_mem_nil w)⟩
  rw [crawl_def]
  exact List.nodup_iff_count_le_one.mp (loop_NodupInv net N 0 [seed] ∅ store0 [] h0).1 u

/-- Witness for claim C10 (amended): `urlA`'s fetch is nonempty in the
fixture network and it is fetched exactly once. -/
theorem crawl_fetch_once_successful_witness :
    fetch_page net0 urlA ≠ "" ∧
      ((crawl net0 seedS 3 ∅).log.map Prod.snd).count urlA ≤ 1 :=
  ⟨by decide, crawl_fetch_once_successful net0 seedS 3 ∅ urlA (by decide)⟩

end WikipediaCrawler
